import Mathlib

set_option linter.unusedVariables false

/-!
# Verification of the OSD session backoff subsystem (`src/osd/Session.h`)

This development embeds the `Backoff` token and the backoff-related part of
the `Session` structure, together with the operations `have_backoff`,
`add_backoff` and `rm_backoff`, and proves properties of them.

Modelling choices:
* the key types `spg_t` (shard id) and `hobject_t` (object key) are totally
  ordered values compared with `cmp` / `operator<`; both are modelled as `Nat`;
* `std::map` is modelled as an association list whose keys are strictly
  sorted (the well-formedness predicates below record the sortedness where a
  proof needs it); `map::lower_bound` and the iterator step-back of
  `have_backoff` are modelled on indices into that list;
* `std::set<BackoffRef>` (ordered by pointer identity) is modelled as a
  duplicate-free list of tokens; iteration order of the C++ set is the
  (unspecified) pointer order, modelled as the list order;
* the reference-counted pointers `PGRef` / `SessionRef` are modelled as
  `Option Nat` (`none` = null, `some i` = a reference to object `i`);
* `std::atomic<int> backoff_count` is modelled as `Int`;
* `Mutex` acquisition is not modelled; `Backoff::lock.is_locked_by_me()`,
  which `rm_backoff` asserts, is passed to the checked variant of
  `rm_backoff` as an explicit `Bool`.
-/

/-- `Backoff` states: `STATE_NEW`, `STATE_ACKED`, `STATE_DELETING`. -/
inductive BState where
  | New
  | Acked
  | Deleting
  deriving DecidableEq, Repr

/-- The `Backoff` token of `Session.h`: identity `(pgid, id)`, half-open
range `[begin, end)` (written `bbegin`/`bend` since `end` is reserved in
Lean), atomic `state`, and the two owner references `pg` and `session`. -/
structure Backoff where
  pgid : Nat
  id : Nat
  bbegin : Nat
  bend : Nat
  state : BState
  pg : Option Nat
  session : Option Nat
  deriving DecidableEq, Repr

/-- The constructor `Backoff::Backoff(pgid, pg, s, i, b, e)`: fields are
stored as given and `state` has its member initializer `STATE_NEW`.  The
C++ constructor performs no check on `pg` or `s`. -/
def Backoff.create (pgid : Nat) (pg : Option Nat) (s : Option Nat)
    (i : Nat) (b : Nat) (e : Nat) : Backoff :=
  { pgid := pgid, id := i, bbegin := b, bend := e,
    state := BState.New, pg := pg, session := s }

/-- The backoff-related part of `Session`:
`std::atomic<int> backoff_count` and
`map<spg_t, map<hobject_t, set<BackoffRef>>> backoffs`.  The unrelated
connection state (caps, watches, epochs, dispatch queue) is out of scope. -/
structure Session where
  backoff_count : Int
  backoffs : List (Nat × List (Nat × List Backoff))
  deriving DecidableEq, Repr

/-- A freshly constructed `Session`: `backoff_count = 0`, `backoffs` empty. -/
def emptySession : Session := { backoff_count := 0, backoffs := [] }

/-! ## Ordered-map primitives

`std::map` operations used by `Session`, on strictly-sorted association
lists: lookup (`find`), insert-or-update (`operator[]` followed by a
mutation), replace at an existing key, and erase of an existing key. -/

/-- `m.find(k)`: the value at key `k`, if present. -/
def mapFind {β : Type} : List (Nat × β) → Nat → Option β
  | [], _ => none
  | kv :: rest, k => if kv.1 = k then some kv.2 else mapFind rest k

/-- `m[k] = f(m[k])`: update the value at `k` (inserting, in key order, if
absent); `f` receives `none` when the key was absent, mirroring the
default-construction done by `operator[]`. -/
def mapUpdate {β : Type} : List (Nat × β) → Nat → (Option β → β) → List (Nat × β)
  | [], k, f => [(k, f none)]
  | kv :: rest, k, f =>
    if k < kv.1 then (k, f none) :: kv :: rest
    else if k = kv.1 then (k, f (some kv.2)) :: rest
    else kv :: mapUpdate rest k f

/-- Replace the value stored at key `k` (no-op if `k` is absent). -/
def mapSet {β : Type} : List (Nat × β) → Nat → β → List (Nat × β)
  | [], _, _ => []
  | kv :: rest, k, v => if kv.1 = k then (k, v) :: rest else kv :: mapSet rest k v

/-- `m.erase(k)`: remove the entry at key `k` (no-op if `k` is absent). -/
def mapErase {β : Type} : List (Nat × β) → Nat → List (Nat × β)
  | [], _ => []
  | kv :: rest, k => if kv.1 = k then rest else kv :: mapErase rest k

/-- `set<BackoffRef>::insert`: a no-op when the element is already present. -/
def setInsert (l : List Backoff) (b : Backoff) : List Backoff :=
  if b ∈ l then l else l ++ [b]

/-! ## `have_backoff` (Session.h lines 173-199) -/

/-- The three-way comparison `cmp` on keys. -/
def cmp3 (a b : Nat) : Ordering :=
  if a < b then Ordering.lt else if a = b then Ordering.eq else Ordering.gt

/-- `i->second.lower_bound(oid)` as an index: the position of the first
entry whose key is `≥ oid` (equals `length` when there is none, i.e. the
`end()` iterator). -/
def lower_bound {β : Type} : List (Nat × β) → Nat → Nat
  | [], _ => 0
  | kv :: rest, oid => if oid ≤ kv.1 then 0 else lower_bound rest oid + 1

/-- The iterator adjustment
`if (p != begin() && (p == end() || p->first > oid)) --p;`. -/
def stepBack {β : Type} (m : List (Nat × β)) (oid : Nat) (i : Nat) : Nat :=
  if i = 0 then i
  else if i = m.length then i - 1
  else match m[i]? with
       | some kv => if oid < kv.1 then i - 1 else i
       | none => i

/-- The scan `for (auto& q : p->second) if (r == 0 || oid < q->end) return q;`
over the bucket at the selected start key, with `r = cmp(oid, p->first)`
fixed. -/
def scan_set (r : Ordering) (oid : Nat) : List Backoff → Option Backoff
  | [] => none
  | q :: qs => if r = Ordering.eq ∨ oid < q.bend then some q else scan_set r oid qs

/-- The body of `have_backoff` on the inner `map<hobject_t, set<BackoffRef>>`
for the located shard: lower-bound, step back, then compare and scan. -/
def have_backoff_in (inner : List (Nat × List Backoff)) (oid : Nat) : Option Backoff :=
  let p := stepBack inner oid (lower_bound inner oid)
  match inner[p]? with
  | none => none
  | some kv =>
    let r := cmp3 oid kv.1
    if r = Ordering.eq ∨ r = Ordering.gt then scan_set r oid kv.2
    else none

/-- `Session::have_backoff(pgid, oid)`: the count-zero fast path returns
null before the `backoffs` map is ever consulted (in the source, before the
lock is taken); otherwise look up the shard bucket and search it. -/
def have_backoff (s : Session) (pgid : Nat) (oid : Nat) : Option Backoff :=
  if s.backoff_count = 0 then none
  else match mapFind s.backoffs pgid with
       | none => none
       | some inner => have_backoff_in inner oid

/-! ## `add_backoff` and `rm_backoff` (Session.h lines 204-235) -/

/-- `Session::add_backoff(b)`:
`backoffs[b->pgid][b->begin].insert(b); ++backoff_count;`.  The increment
is unconditional — it happens even when the set insert was a no-op. -/
def add_backoff (s : Session) (b : Backoff) : Session :=
  { backoff_count := s.backoff_count + 1,
    backoffs := mapUpdate s.backoffs b.pgid (fun inner =>
      mapUpdate (inner.getD []) b.bbegin (fun bkt =>
        setInsert (bkt.getD []) b)) }

/-- `Session::rm_backoff(b)` (the mutation after its precondition asserts):
look up `b->pgid`, then `b->begin`, then the token itself; if found, erase
it, decrement the count, and prune the now-empty start-key bucket and shard
bucket.  Any failed lookup (a race with `clear_backoffs()`) is a no-op. -/
def rm_backoff (s : Session) (b : Backoff) : Session :=
  match mapFind s.backoffs b.pgid with
  | none => s
  | some inner =>
    match mapFind inner b.bbegin with
    | none => s
    | some bkt =>
      if b ∈ bkt then
        let bkt' := bkt.erase b
        let inner' := if bkt' = [] then mapErase inner b.bbegin
                      else mapSet inner b.bbegin bkt'
        let outer' := if inner' = [] then mapErase s.backoffs b.pgid
                      else mapSet s.backoffs b.pgid inner'
        { backoff_count := s.backoff_count - 1, backoffs := outer' }
      else s

/-- `rm_backoff` with its two entry assertions
`ceph_assert(b->lock.is_locked_by_me())` and
`ceph_assert(b->session == this)` (Session.h lines 212-215).  `self` is the
id of the session being modified and `lockHeldByMe` reports whether the
caller holds `b`'s own lock; a failed assertion aborts (`none`). -/
def rm_backoffChecked (self : Nat) (lockHeldByMe : Bool) (s : Session)
    (b : Backoff) : Option Session :=
  if lockHeldByMe = false then none
  else if b.session ≠ some self then none
  else some (rm_backoff s b)

/-! ## Derived views and invariants -/

/-- All tokens registered in the session's nested index. -/
def allTokens (s : Session) : List Backoff :=
  s.backoffs.flatMap (fun gi => gi.2.flatMap (fun kb => kb.2))

/-- The tokens registered for one shard. -/
def sessionTokens (s : Session) (pgid : Nat) : List Backoff :=
  match mapFind s.backoffs pgid with
  | none => []
  | some inner => inner.flatMap (fun kb => kb.2)

/-- The start-key bucket (the `set<BackoffRef>`) at `(pgid, k)`. -/
def bucketOf (s : Session) (pgid : Nat) (k : Nat) : List Backoff :=
  match mapFind s.backoffs pgid with
  | none => []
  | some inner => (mapFind inner k).getD []

/-- Sum of a size measure over the values of an association list. -/
def mapSum {β : Type} (sz : β → Nat) (m : List (Nat × β)) : Nat :=
  (m.map (fun kv => sz kv.2)).sum

/-- Total number of entries stored across the nested structure. -/
def totalEntries (s : Session) : Nat :=
  mapSum (fun inner => mapSum (fun bkt => bkt.length) inner) s.backoffs

/-- The invariant asserted by the source at every lock acquisition and
release point: `ceph_assert(!backoff_count == backoffs.empty())`. -/
def cephInv (s : Session) : Prop :=
  (s.backoff_count = 0) ↔ (s.backoffs = [])

instance (s : Session) : Decidable (cephInv s) := by
  unfold cephInv; infer_instance

/-- A token matching a lookup key, as the spec states it:
`begin == key` or `begin ≤ key < end`. -/
def BMatches (b : Backoff) (key : Nat) : Prop :=
  b.bbegin = key ∨ (b.bbegin ≤ key ∧ key < b.bend)

instance (b : Backoff) (key : Nat) : Decidable (BMatches b key) := by
  unfold BMatches; infer_instance

/-- Non-overlap of the ranges registered for one shard (the spec's
"correctness requirement" on the shard collaborator): a token's range never
reaches into a bucket with a larger start key. -/
def NonOverlap (s : Session) (pgid : Nat) : Prop :=
  ∀ b1 ∈ sessionTokens s pgid, ∀ b2 ∈ sessionTokens s pgid,
    b1.bbegin < b2.bbegin → b1.bend ≤ b2.bbegin

instance (s : Session) (pgid : Nat) : Decidable (NonOverlap s pgid) := by
  unfold NonOverlap; infer_instance

/-- Structural well-formedness of a session, as maintained by
`add_backoff`/`rm_backoff`: both map levels strictly sorted, no empty
intermediate bucket (rm prunes them), each `set` duplicate-free, every
token filed under its own `(pgid, begin)`, and the count equal to the
number of stored entries. -/
def SessionWF (s : Session) : Prop :=
  s.backoffs.Pairwise (fun a b => a.1 < b.1) ∧
  (∀ gi ∈ s.backoffs,
    gi.2.Pairwise (fun a b => a.1 < b.1) ∧ gi.2 ≠ [] ∧
    ∀ kb ∈ gi.2, kb.2 ≠ [] ∧ kb.2.Nodup ∧
      ∀ b ∈ kb.2, b.pgid = gi.1 ∧ b.bbegin = kb.1) ∧
  s.backoff_count = (totalEntries s : Int)

instance (s : Session) : Decidable (SessionWF s) := by
  unfold SessionWF; infer_instance

/-! ## Call sequences on a session -/

/-- One call on the session's backoff index. -/
inductive Op where
  | add (b : Backoff)
  | rm (b : Backoff)
  deriving DecidableEq, Repr

/-- Apply one call. -/
def applyOp (s : Session) : Op → Session
  | Op.add b => add_backoff s b
  | Op.rm b => rm_backoff s b

/-- Run a sequence of calls. -/
def runOps : Session → List Op → Session
  | s, [] => s
  | s, op :: rest => runOps (applyOp s op) rest

/-- A call sequence in which `add_backoff` is never invoked with a token
that is already registered at that point (how the PG callers use the
interface: each token is added at most once).  `rm` calls are
unrestricted. -/
def okOps : Session → List Op → Bool
  | _, [] => true
  | s, Op.add b :: rest =>
    if b ∈ allTokens s then false else okOps (add_backoff s b) rest
  | s, Op.rm b :: rest => okOps (rm_backoff s b) rest

/-! ## The token lifecycle and its owner references

Modelled from the spec: the bodies of `Session::clear_backoffs`,
`Session::ack_backoff` and the PG-side release paths are only declared in
`Session.h`; the transitions below follow the spec (sections 4.1 and 4.4)
and the source's header comments (lines 60-67 and the NOTE at lines
99-102). -/

/-- The owner-reference view of one live token: its state and the two
back-references. -/
structure BackoffOwn where
  state : BState
  pg : Option Nat
  session : Option Nat
  deriving DecidableEq, Repr

/-- Modelled from the spec: the lifecycle transitions of a token's
`(state, pg, session)` triple.
* `mark_acked`: client ack, `New → Acked`, references untouched;
* `release_live`: the PG releases a token the client knows about — it
  sends the unblock message, unlinks the session and drops its own
  reference ("when the PG clears the backoff, it will send an unblock
  message if the Session* is still non-null, and unlink the session");
* `release_new`: the PG releases a token still in flight — it marks it
  `Deleting` and drops its own reference, leaving the session reference
  until the client's ack arrives (the NOTE's "only session is set (and
  state == DELETING)" state);
* `ack_deleting`: the client's ack finalizes a `Deleting` token — the
  session removes and drops it;
* `session_clear`: `clear_backoffs()` on session teardown — "we lock each
  of the Backoffs we previously referenced and clear the Session* pointer.
  If the PG is still linked, we unlink it, too." -/
inductive BStep : BackoffOwn → BackoffOwn → Prop
  | mark_acked (p s : Option Nat) :
      BStep ⟨BState.New, p, s⟩ ⟨BState.Acked, p, s⟩
  | release_live (st : BState) (p s : Nat) :
      BStep ⟨st, some p, some s⟩ ⟨BState.Deleting, none, none⟩
  | release_new (p s : Nat) :
      BStep ⟨BState.New, some p, some s⟩ ⟨BState.Deleting, none, some s⟩
  | ack_deleting (s : Nat) :
      BStep ⟨BState.Deleting, none, some s⟩ ⟨BState.Deleting, none, none⟩
  | session_clear (st : BState) (p : Option Nat) (s : Nat) :
      BStep ⟨st, p, some s⟩ ⟨st, none, none⟩

/-- Token triples reachable from construction: `Backoff::Backoff` starts in
`STATE_NEW` holding both owner references. -/
inductive BReachable : BackoffOwn → Prop
  | init (p s : Nat) : BReachable ⟨BState.New, some p, some s⟩
  | step {t t' : BackoffOwn} : BReachable t → BStep t t' → BReachable t'

/-- The owner-reference invariant stated by the source's NOTE (Session.h
lines 99-102): the owning PG and session are either both set, or both
null, or only the session is set and the state is `DELETING`. -/
def OwnerInv (t : BackoffOwn) : Prop :=
  (t.pg ≠ none ∧ t.session ≠ none) ∨
  (t.pg = none ∧ t.session = none) ∨
  (t.pg = none ∧ t.session ≠ none ∧ t.state = BState.Deleting)

instance (t : BackoffOwn) : Decidable (OwnerInv t) := by
  unfold OwnerInv; infer_instance

/-! ## State-mapping view (for state-independence of lookup) -/

/-- Rewrite a token's state in place, leaving identity, range and owner
references unchanged (the value-level picture of a state transition on a
token that stays registered). -/
def setBState (f : BState → BState) (b : Backoff) : Backoff :=
  { b with state := f b.state }

/-- Apply a state transition to every token registered in the session. -/
def mapStateSession (f : BState → BState) (s : Session) : Session :=
  { backoff_count := s.backoff_count,
    backoffs := s.backoffs.map (fun gi =>
      (gi.1, gi.2.map (fun kb => (kb.1, kb.2.map (setBState f))))) }

/-- A fresh session is well-formed. -/
theorem emptySession_WF : SessionWF emptySession := by decide

/-- Sanity check (the spec's running example): with `[oid_5, oid_10)`
registered, lookup at `oid_7` matches. -/
theorem spec_example_inside :
    have_backoff (add_backoff emptySession
        (Backoff.create 1 (some 0) (some 0) 1 5 10)) 1 7
      = some (Backoff.create 1 (some 0) (some 0) 1 5 10) := by decide

/-- Sanity check: lookup at `oid_10`, one past the half-open range, misses. -/
theorem spec_example_at_end :
    have_backoff (add_backoff emptySession
        (Backoff.create 1 (some 0) (some 0) 1 5 10)) 1 10
      = none := by decide

/-- Sanity check: lookup at `oid_3`, before the range, misses. -/
theorem spec_example_before :
    have_backoff (add_backoff emptySession
        (Backoff.create 1 (some 0) (some 0) 1 5 10)) 1 3
      = none := by decide

/-! ## Lemmas about the ordered-map primitives -/

theorem mapFind_mem {β : Type} {m : List (Nat × β)} {k : Nat} {v : β}
    (h : mapFind m k = some v) : (k, v) ∈ m := by
  induction m with
  | nil => simp [mapFind] at h
  | cons kv rest ih =>
    by_cases hk : kv.1 = k
    · simp [mapFind, hk] at h
      subst hk h
      exact List.mem_cons_self _ _
    · simp [mapFind, hk] at h
      exact List.mem_cons_of_mem _ (ih h)

theorem mapFind_eq_none {β : Type} {m : List (Nat × β)} {k : Nat}
    (h : ∀ kv ∈ m, kv.1 ≠ k) : mapFind m k = none := by
  induction m with
  | nil => rfl
  | cons kv rest ih =>
    simp only [mapFind]
    rw [if_neg (h kv (List.mem_cons_self _ _))]
    exact ih (fun kv' hkv' => h kv' (List.mem_cons_of_mem _ hkv'))

theorem mapFind_eq_some_of_mem {β : Type} {m : List (Nat × β)} {k : Nat} {v : β}
    (hs : m.Pairwise (fun a b => a.1 < b.1)) (h : (k, v) ∈ m) :
    mapFind m k = some v := by
  induction m with
  | nil => simp at h
  | cons kv rest ih =>
    rcases List.mem_cons.mp h with h | h
    · simp [mapFind, ← h]
    · have hlt : kv.1 < k := (List.pairwise_cons.mp hs).1 (k, v) h
      simp only [mapFind]
      rw [if_neg (by omega)]
      exact ih (List.pairwise_cons.mp hs).2 h

theorem mem_mapUpdate {β : Type} {m : List (Nat × β)} {k : Nat}
    {f : Option β → β} {kv : Nat × β} (h : kv ∈ mapUpdate m k f) :
    kv.1 = k ∨ kv ∈ m := by
  induction m with
  | nil =>
    simp [mapUpdate] at h
    left; rw [h]
  | cons kv0 rest ih =>
    simp only [mapUpdate] at h
    by_cases h1 : k < kv0.1
    · rw [if_pos h1] at h
      rcases List.mem_cons.mp h with h | h
      · left; rw [h]
      · right; exact h
    · rw [if_neg h1] at h
      by_cases h2 : k = kv0.1
      · rw [if_pos h2] at h
        rcases List.mem_cons.mp h with h | h
        · left; rw [h]
        · right; exact List.mem_cons_of_mem _ h
      · rw [if_neg h2] at h
        rcases List.mem_cons.mp h with h | h
        · right; exact h ▸ List.mem_cons_self _ _
        · rcases ih h with h | h
          · left; exact h
          · right; exact List.mem_cons_of_mem _ h

theorem mem_mapUpdate_sorted {β : Type} {m : List (Nat × β)} {k : Nat}
    {f : Option β → β} {kv : Nat × β}
    (hs : m.Pairwise (fun a b => a.1 < b.1)) (h : kv ∈ mapUpdate m k f) :
    kv ∈ m ∨ kv = (k, f (mapFind m k)) := by
  induction m with
  | nil =>
    simp [mapUpdate] at h
    right; rw [h]; rfl
  | cons kv0 rest ih =>
    have hs2 := (List.pairwise_cons.mp hs).2
    have hs1 := (List.pairwise_cons.mp hs).1
    simp only [mapUpdate] at h
    by_cases h1 : k < kv0.1
    · rw [if_pos h1] at h
      rcases List.mem_cons.mp h with h | h
      · right
        have : mapFind (kv0 :: rest) k = none := by
          apply mapFind_eq_none
          intro kv' hkv'
          rcases List.mem_cons.mp hkv' with h' | h'
          · subst h'; omega
          · have := hs1 kv' h'; omega
        rw [this, h]
      · left; exact h
    · rw [if_neg h1] at h
      by_cases h2 : k = kv0.1
      · rw [if_pos h2] at h
        rcases List.mem_cons.mp h with h | h
        · right
          have : mapFind (kv0 :: rest) k = some kv0.2 := by
            simp [mapFind, h2]
          rw [this, h]
        · left; exact List.mem_cons_of_mem _ h
      · rw [if_neg h2] at h
        rcases List.mem_cons.mp h with h | h
        · left; exact h ▸ List.mem_cons_self _ _
        · rcases ih hs2 h with h | h
          · left; exact List.mem_cons_of_mem _ h
          · right
            have : mapFind (kv0 :: rest) k = mapFind rest k := by
              simp [mapFind, Ne.symm h2]
            rw [this]; exact h

theorem mapUpdate_sorted {β : Type} {m : List (Nat × β)} {k : Nat}
    {f : Option β → β} (hs : m.Pairwise (fun a b => a.1 < b.1)) :
    (mapUpdate m k f).Pairwise (fun a b => a.1 < b.1) := by
  induction m with
  | nil => simp [mapUpdate]
  | cons kv0 rest ih =>
    have hs2 := (List.pairwise_cons.mp hs).2
    have hs1 := (List.pairwise_cons.mp hs).1
    simp only [mapUpdate]
    by_cases h1 : k < kv0.1
    · rw [if_pos h1]
      refine List.pairwise_cons.mpr ⟨?_, hs⟩
      intro kv' hkv'
      rcases List.mem_cons.mp hkv' with h' | h'
      · subst h'; exact h1
      · have := hs1 kv' h'; simpa using lt_trans h1 this
    · rw [if_neg h1]
      by_cases h2 : k = kv0.1
      · rw [if_pos h2]
        refine List.pairwise_cons.mpr ⟨?_, hs2⟩
        intro kv' hkv'
        simpa using h2 ▸ hs1 kv' hkv'
      · rw [if_neg h2]
        refine List.pairwise_cons.mpr ⟨?_, ih hs2⟩
        intro kv' hkv'
        rcases mem_mapUpdate hkv' with h' | h'
        · rw [h']; omega
        · exact hs1 kv' h'

theorem mem_mapSet {β : Type} {m : List (Nat × β)} {k : Nat} {v : β}
    {kv : Nat × β} (h : kv ∈ mapSet m k v) : kv = (k, v) ∨ kv ∈ m := by
  induction m with
  | nil => simp [mapSet] at h
  | cons kv0 rest ih =>
    simp only [mapSet] at h
    by_cases h1 : kv0.1 = k
    · rw [if_pos h1] at h
      rcases List.mem_cons.mp h with h | h
      · left; exact h
      · right; exact List.mem_cons_of_mem _ h
    · rw [if_neg h1] at h
      rcases List.mem_cons.mp h with h | h
      · right; exact h ▸ List.mem_cons_self _ _
      · rcases ih h with h | h
        · left; exact h
        · right; exact List.mem_cons_of_mem _ h

theorem mapSet_keys {β : Type} (m : List (Nat × β)) (k : Nat) (v : β) :
    (mapSet m k v).map Prod.fst = m.map Prod.fst := by
  induction m with
  | nil => rfl
  | cons kv0 rest ih =>
    simp only [mapSet]
    by_cases h1 : kv0.1 = k
    · rw [if_pos h1]; simp [h1]
    · rw [if_neg h1]; simp [ih]

theorem mapSet_sorted {β : Type} {m : List (Nat × β)} {k : Nat} {v : β}
    (hs : m.Pairwise (fun a b => a.1 < b.1)) :
    (mapSet m k v).Pairwise (fun a b => a.1 < b.1) := by
  have h1 : m.Pairwise (fun a b => a.1 < b.1) ↔
      (m.map Prod.fst).Pairwise (· < ·) := (List.pairwise_map).symm
  have h2 : (mapSet m k v).Pairwise (fun a b => a.1 < b.1) ↔
      ((mapSet m k v).map Prod.fst).Pairwise (· < ·) := (List.pairwise_map).symm
  rw [h2, mapSet_keys]
  exact h1.mp hs

theorem mapErase_sublist {β : Type} (m : List (Nat × β)) (k : Nat) :
    (mapErase m k).Sublist m := by
  induction m with
  | nil => simp [mapErase]
  | cons kv0 rest ih =>
    simp only [mapErase]
    by_cases h1 : kv0.1 = k
    · rw [if_pos h1]; exact List.sublist_cons_self _ _
    · rw [if_neg h1]; exact ih.cons₂ _

theorem mapErase_sorted {β : Type} {m : List (Nat × β)} {k : Nat}
    (hs : m.Pairwise (fun a b => a.1 < b.1)) :
    (mapErase m k).Pairwise (fun a b => a.1 < b.1) :=
  hs.sublist (mapErase_sublist m k)

/-- Size of an optional value: 0 for `none`. -/
def optSize {β : Type} (sz : β → Nat) : Option β → Nat
  | none => 0
  | some v => sz v

theorem mapSum_nil {β : Type} (sz : β → Nat) : mapSum sz ([] : List (Nat × β)) = 0 := rfl

theorem mapSum_cons {β : Type} (sz : β → Nat) (kv : Nat × β) (m : List (Nat × β)) :
    mapSum sz (kv :: m) = sz kv.2 + mapSum sz m := by
  simp [mapSum]

theorem mapUpdate_mapSum {β : Type} {m : List (Nat × β)} (sz : β → Nat)
    (k : Nat) (f : Option β → β) (hs : m.Pairwise (fun a b => a.1 < b.1)) :
    mapSum sz (mapUpdate m k f) + optSize sz (mapFind m k)
      = mapSum sz m + sz (f (mapFind m k)) := by
  induction m with
  | nil => simp [mapUpdate, mapFind, mapSum_cons, mapSum_nil, optSize]
  | cons kv0 rest ih =>
    have hs2 := (List.pairwise_cons.mp hs).2
    have hs1 := (List.pairwise_cons.mp hs).1
    simp only [mapUpdate]
    by_cases h1 : k < kv0.1
    · rw [if_pos h1]
      have hf : mapFind (kv0 :: rest) k = none := by
        apply mapFind_eq_none
        intro kv' hkv'
        rcases List.mem_cons.mp hkv' with h' | h'
        · subst h'; omega
        · have := hs1 kv' h'; omega
      rw [hf]
      simp [mapSum_cons, optSize]
      omega
    · rw [if_neg h1]
      by_cases h2 : k = kv0.1
      · rw [if_pos h2]
        have hf : mapFind (kv0 :: rest) k = some kv0.2 := by
          simp [mapFind, h2]
        rw [hf]
        simp [mapSum_cons, optSize]
        omega
      · rw [if_neg h2]
        have hf : mapFind (kv0 :: rest) k = mapFind rest k := by
          simp [mapFind, Ne.symm h2]
        rw [hf, mapSum_cons, mapSum_cons]
        have := ih hs2
        omega

theorem mapSet_mapSum {β : Type} {m : List (Nat × β)} {k : Nat} {v : β}
    (sz : β → Nat) (v' : β) (hf : mapFind m k = some v) :
    mapSum sz (mapSet m k v') + sz v = mapSum sz m + sz v' := by
  induction m with
  | nil => simp [mapFind] at hf
  | cons kv0 rest ih =>
    simp only [mapSet]
    by_cases h1 : kv0.1 = k
    · rw [if_pos h1]
      simp only [mapFind, if_pos h1] at hf
      injection hf with hf
      simp [mapSum_cons, hf]
      omega
    · rw [if_neg h1]
      simp only [mapFind, if_neg h1] at hf
      rw [mapSum_cons, mapSum_cons]
      have := ih hf
      omega

theorem mapErase_mapSum {β : Type} {m : List (Nat × β)} {k : Nat} {v : β}
    (sz : β → Nat) (hf : mapFind m k = some v) :
    mapSum sz (mapErase m k) + sz v = mapSum sz m := by
  induction m with
  | nil => simp [mapFind] at hf
  | cons kv0 rest ih =>
    simp only [mapErase]
    by_cases h1 : kv0.1 = k
    · rw [if_pos h1]
      simp only [mapFind, if_pos h1] at hf
      injection hf with hf
      simp [mapSum_cons, hf]
      omega
    · rw [if_neg h1]
      simp only [mapFind, if_neg h1] at hf
      rw [mapSum_cons, mapSum_cons]
      have := ih hf
      omega

/-! ## Characterizing the nearest-below bucket search of `have_backoff` -/

/-- The greatest entry whose key is `≤ oid`, on a sorted association list
(the bucket that `lower_bound` plus the step-back of `have_backoff`
selects, whenever any key `≤ oid` exists). -/
def gle {β : Type} : List (Nat × β) → Nat → Option (Nat × β)
  | [], _ => none
  | kv :: rest, oid =>
    if kv.1 ≤ oid then
      match gle rest oid with
      | some kv' => some kv'
      | none => some kv
    else none

theorem gle_mem {β : Type} {l : List (Nat × β)} {oid : Nat} {kv' : Nat × β}
    (h : gle l oid = some kv') : kv' ∈ l := by
  induction l with
  | nil => simp [gle] at h
  | cons kv rest ih =>
    simp only [gle] at h
    by_cases h1 : kv.1 ≤ oid
    · rw [if_pos h1] at h
      cases hg : gle rest oid with
      | some kv2 =>
        rw [hg] at h
        injection h with h
        rw [h] at hg
        exact List.mem_cons_of_mem _ (ih hg)
      | none =>
        rw [hg] at h
        injection h with h
        exact h ▸ List.mem_cons_self _ _
    · rw [if_neg h1] at h
      exact absurd h (by simp)

theorem gle_key_le {β : Type} {l : List (Nat × β)} {oid : Nat} {kv' : Nat × β}
    (h : gle l oid = some kv') : kv'.1 ≤ oid := by
  induction l with
  | nil => simp [gle] at h
  | cons kv rest ih =>
    simp only [gle] at h
    by_cases h1 : kv.1 ≤ oid
    · rw [if_pos h1] at h
      cases hg : gle rest oid with
      | some kv2 =>
        rw [hg] at h
        injection h with h
        rw [h] at hg
        exact ih hg
      | none =>
        rw [hg] at h
        injection h with h
        exact h ▸ h1
    · rw [if_neg h1] at h
      exact absurd h (by simp)

theorem gle_eq_none_of_forall {β : Type} {l : List (Nat × β)} {oid : Nat}
    (h : ∀ kv ∈ l, oid < kv.1) : gle l oid = none := by
  cases l with
  | nil => rfl
  | cons kv rest =>
    have := h kv (List.mem_cons_self _ _)
    simp only [gle]
    rw [if_neg (by omega)]

theorem gle_isSome_of_mem {β : Type} {l : List (Nat × β)} {oid : Nat}
    {kv : Nat × β} (hs : l.Pairwise (fun a b => a.1 < b.1))
    (h : kv ∈ l) (hk : kv.1 ≤ oid) : (gle l oid).isSome := by
  induction l with
  | nil => simp at h
  | cons kv0 rest ih =>
    have hs1 := (List.pairwise_cons.mp hs).1
    have hs2 := (List.pairwise_cons.mp hs).2
    have h0 : kv0.1 ≤ oid := by
      rcases List.mem_cons.mp h with h' | h'
      · rw [h'] at hk; exact hk
      · have := hs1 kv h'; omega
    simp only [gle]
    rw [if_pos h0]
    cases hg : gle rest oid <;> simp

theorem gle_greatest {β : Type} {l : List (Nat × β)} {oid : Nat} {kv' : Nat × β}
    (hs : l.Pairwise (fun a b => a.1 < b.1)) (h : gle l oid = some kv') :
    ∀ kv ∈ l, kv.1 ≤ oid → kv.1 ≤ kv'.1 := by
  induction l with
  | nil => simp [gle] at h
  | cons kv0 rest ih =>
    have hs1 := (List.pairwise_cons.mp hs).1
    have hs2 := (List.pairwise_cons.mp hs).2
    intro kv hkv hk
    simp only [gle] at h
    by_cases h1 : kv0.1 ≤ oid
    · rw [if_pos h1] at h
      cases hg : gle rest oid with
      | some kv2 =>
        rw [hg] at h
        injection h with h
        rw [h] at hg
        rcases List.mem_cons.mp hkv with h' | h'
        · have hm : kv' ∈ rest := gle_mem hg
          have := hs1 kv' hm
          rw [h']; omega
        · exact ih hs2 hg kv h' hk
      | none =>
        rw [hg] at h
        injection h with h
        rcases List.mem_cons.mp hkv with h' | h'
        · rw [h', h]
        · have hall : ∀ kv2 ∈ rest, oid < kv2.1 := by
            intro kv2 hkv2
            by_contra hcon
            push_neg at hcon
            have := gle_isSome_of_mem hs2 hkv2 hcon
            rw [hg] at this
            simp at this
          have := hall kv h'
          omega
    · rw [if_neg h1] at h
      exact absurd h (by simp)

theorem lower_bound_le_length {β : Type} (l : List (Nat × β)) (oid : Nat) :
    lower_bound l oid ≤ l.length := by
  induction l with
  | nil => simp [lower_bound]
  | cons kv rest ih =>
    simp only [lower_bound]
    by_cases h1 : oid ≤ kv.1
    · rw [if_pos h1]; simp
    · rw [if_neg h1]; simpa using ih

theorem stepBack_cons {β : Type} (kv0 h : Nat × β) (t : List (Nat × β))
    (oid j : Nat) (hh : h.1 ≤ oid) (hj : j ≤ (h :: t).length) :
    stepBack (kv0 :: h :: t) oid (j + 1) = stepBack (h :: t) oid j + 1 := by
  rcases Nat.eq_zero_or_pos j with hj0 | hj0
  · subst hj0
    have h1 : stepBack (h :: t) oid 0 = 0 := by simp [stepBack]
    have hidx : (kv0 :: h :: t)[1]? = some h := by simp
    have h2 : stepBack (kv0 :: h :: t) oid 1 = 1 := by
      simp only [stepBack, hidx, List.length_cons]
      rw [if_neg (by omega), if_neg (by omega), if_neg (by omega)]
    rw [h1, h2]
  · by_cases hjl : j = (h :: t).length
    · have h1 : stepBack (h :: t) oid j = j - 1 := by
        simp only [stepBack]
        rw [if_neg (by omega), if_pos hjl]
      have h2 : stepBack (kv0 :: h :: t) oid (j + 1) = j := by
        have hL : j + 1 = (kv0 :: h :: t).length := by
          simp only [List.length_cons]
          simp only [List.length_cons] at hjl
          omega
        simp only [stepBack]
        rw [if_neg (by omega), if_pos hL]
        omega
      rw [h1, h2]
      omega
    · have hjlt : j < (h :: t).length := lt_of_le_of_ne hj hjl
      obtain ⟨kvj, hkvj⟩ : ∃ kvj, (h :: t)[j]? = some kvj :=
        ⟨_, List.getElem?_eq_getElem hjlt⟩
      have hcons : (kv0 :: h :: t)[j + 1]? = some kvj := by
        rw [List.getElem?_cons_succ, hkvj]
      have h1 : stepBack (h :: t) oid j = if oid < kvj.1 then j - 1 else j := by
        simp only [stepBack, hkvj]
        rw [if_neg (by omega), if_neg hjl]
      have h2 : stepBack (kv0 :: h :: t) oid (j + 1)
          = if oid < kvj.1 then j else j + 1 := by
        have hL : j + 1 ≠ (kv0 :: h :: t).length := by
          simp only [List.length_cons]
          simp only [List.length_cons] at hjlt
          omega
        simp only [stepBack, hcons]
        rw [if_neg (by omega), if_neg hL]
        by_cases hc : oid < kvj.1
        · rw [if_pos hc, if_pos hc]
          omega
        · rw [if_neg hc, if_neg hc]
      rw [h1, h2]
      by_cases hc : oid < kvj.1
      · rw [if_pos hc, if_pos hc]
        omega
      · rw [if_neg hc, if_neg hc]

theorem have_backoff_in_eq_gle {inner : List (Nat × List Backoff)} {oid : Nat}
    (hs : inner.Pairwise (fun a b => a.1 < b.1)) :
    have_backoff_in inner oid =
      match gle inner oid with
      | none => none
      | some kv => scan_set (cmp3 oid kv.1) oid kv.2 := by
  induction inner with
  | nil => simp [have_backoff_in, gle, stepBack, lower_bound]
  | cons kv0 rest ih =>
    have hs1 := (List.pairwise_cons.mp hs).1
    have hs2 := (List.pairwise_cons.mp hs).2
    rcases Nat.lt_trichotomy oid kv0.1 with hlt | heq | hgt
    · -- first start key already beyond the target: r < 0, no match
      have hlb : lower_bound (kv0 :: rest) oid = 0 := by
        simp only [lower_bound]
        rw [if_pos (by omega)]
      have hsb : stepBack (kv0 :: rest) oid 0 = 0 := by simp [stepBack]
      have hr : cmp3 oid kv0.1 = Ordering.lt := by
        unfold cmp3
        rw [if_pos hlt]
      have hg : gle (kv0 :: rest) oid = none := by
        simp only [gle]
        rw [if_neg (by omega)]
      simp only [have_backoff_in, hlb, hsb, hg, List.getElem?_cons_zero, hr]
      simp
    · -- exact hit on the first start key: r == 0
      have hlb : lower_bound (kv0 :: rest) oid = 0 := by
        simp only [lower_bound]
        rw [if_pos (by omega)]
      have hsb : stepBack (kv0 :: rest) oid 0 = 0 := by simp [stepBack]
      have hr : cmp3 oid kv0.1 = Ordering.eq := by
        unfold cmp3
        rw [if_neg (by omega), if_pos heq]
      have hg : gle (kv0 :: rest) oid = some kv0 := by
        have hnone : gle rest oid = none := by
          apply gle_eq_none_of_forall
          intro kv hkv
          have := hs1 kv hkv
          omega
        simp only [gle, hnone]
        rw [if_pos (by omega)]
      simp only [have_backoff_in, hlb, hsb, hg, List.getElem?_cons_zero, hr]
      simp
    · -- kv0.1 < oid
      have hr : cmp3 oid kv0.1 = Ordering.gt := by
        have hne1 : ¬ (oid < kv0.1) := by omega
        have hne2 : ¬ (oid = kv0.1) := by omega
        unfold cmp3
        rw [if_neg hne1, if_neg hne2]
      cases hg : gle rest oid with
      | none =>
        -- no start key of `rest` is ≤ oid: the step-back lands on kv0
        have hgc : gle (kv0 :: rest) oid = some kv0 := by
          simp only [gle, hg]
          rw [if_pos (by omega)]
        cases rest with
        | nil =>
          have hlb : lower_bound [kv0] oid = 1 := by
            simp only [lower_bound]
            rw [if_neg (by omega)]
          have hsb : stepBack [kv0] oid 1 = 0 := rfl
          simp only [have_backoff_in, hlb, hsb, hgc, List.getElem?_cons_zero, hr]
          simp
        | cons h1 t1 =>
          have hh1 : oid < h1.1 := by
            by_contra hcon
            push_neg at hcon
            have := gle_isSome_of_mem hs2 (List.mem_cons_self h1 t1) hcon
            rw [hg] at this
            simp at this
          have hlb : lower_bound (kv0 :: h1 :: t1) oid = 1 := by
            simp only [lower_bound]
            rw [if_neg (by omega), if_pos (by omega)]
          have hidx : (kv0 :: h1 :: t1)[1]? = some h1 := by simp
          have hsb : stepBack (kv0 :: h1 :: t1) oid 1 = 0 := by
            simp only [stepBack, hidx, List.length_cons]
            rw [if_neg (by omega), if_neg (by omega), if_pos hh1]
          simp only [have_backoff_in, hlb, hsb, hgc, List.getElem?_cons_zero, hr]
          simp
      | some kv' =>
        -- the search continues in `rest`, one position to the right
        have hgc : gle (kv0 :: rest) oid = some kv' := by
          simp only [gle, hg]
          rw [if_pos (by omega)]
        obtain ⟨h1, t1, hrest⟩ : ∃ h1 t1, rest = h1 :: t1 := by
          cases rest with
          | nil => simp [gle] at hg
          | cons h1 t1 => exact ⟨h1, t1, rfl⟩
        subst hrest
        have hh1 : h1.1 ≤ oid := by
          by_contra hcon
          push_neg at hcon
          simp only [gle] at hg
          rw [if_neg (by omega)] at hg
          exact absurd hg (by simp)
        have hlb : lower_bound (kv0 :: h1 :: t1) oid
            = lower_bound (h1 :: t1) oid + 1 := by
          simp only [lower_bound]
          rw [if_neg (by omega)]
        have hsb := stepBack_cons kv0 h1 t1 oid (lower_bound (h1 :: t1) oid)
          hh1 (lower_bound_le_length _ _)
        have hstep : (kv0 :: h1 :: t1)[stepBack (h1 :: t1) oid
            (lower_bound (h1 :: t1) oid) + 1]?
            = (h1 :: t1)[stepBack (h1 :: t1) oid (lower_bound (h1 :: t1) oid)]? :=
          List.getElem?_cons_succ
        have hL : have_backoff_in (kv0 :: h1 :: t1) oid
            = have_backoff_in (h1 :: t1) oid := by
          simp only [have_backoff_in, hlb, hsb, hstep]
        rw [hL, ih hs2, hg, hgc]

theorem scan_some_mem {r : Ordering} {oid : Nat} {bkt : List Backoff} {q : Backoff}
    (h : scan_set r oid bkt = some q) :
    q ∈ bkt ∧ (r = Ordering.eq ∨ oid < q.bend) := by
  induction bkt with
  | nil => simp [scan_set] at h
  | cons q0 qs ih =>
    simp only [scan_set] at h
    by_cases hc : r = Ordering.eq ∨ oid < q0.bend
    · rw [if_pos hc] at h
      injection h with h
      subst h
      exact ⟨List.mem_cons_self _ _, hc⟩
    · rw [if_neg hc] at h
      obtain ⟨hmem, hcond⟩ := ih h
      exact ⟨List.mem_cons_of_mem _ hmem, hcond⟩

theorem scan_isSome_of_exists {r : Ordering} {oid : Nat} {bkt : List Backoff}
    {q : Backoff} (hq : q ∈ bkt) (hc : r = Ordering.eq ∨ oid < q.bend) :
    (scan_set r oid bkt).isSome = true := by
  induction bkt with
  | nil => simp at hq
  | cons q0 qs ih =>
    simp only [scan_set]
    by_cases hc0 : r = Ordering.eq ∨ oid < q0.bend
    · rw [if_pos hc0]; rfl
    · rw [if_neg hc0]
      rcases List.mem_cons.mp hq with h' | h'
      · subst h'; exact absurd hc hc0
      · exact ih h'

theorem scan_eq_isSome {oid : Nat} {bkt : List Backoff} (h : bkt ≠ []) :
    (scan_set Ordering.eq oid bkt).isSome = true := by
  cases bkt with
  | nil => exact absurd rfl h
  | cons q0 qs =>
    simp [scan_set]

theorem cmp3_eq_iff {a b : Nat} : cmp3 a b = Ordering.eq ↔ a = b := by
  unfold cmp3
  by_cases h1 : a < b
  · rw [if_pos h1]; constructor
    · intro h; exact absurd h (by simp)
    · intro h; omega
  · rw [if_neg h1]
    by_cases h2 : a = b
    · rw [if_pos h2]; simp [h2]
    · rw [if_neg h2]; constructor
      · intro h; exact absurd h (by simp)
      · intro h; exact absurd h h2

theorem totalEntries_eq_zero {s : Session} (hwf : SessionWF s)
    (h : totalEntries s = 0) : s.backoffs = [] := by
  obtain ⟨hso, hin, hc⟩ := hwf
  cases hb : s.backoffs with
  | nil => rfl
  | cons gi rest =>
    exfalso
    obtain ⟨hsort, hne, hkb⟩ := hin gi (hb ▸ List.mem_cons_self _ _)
    cases hgi : gi.2 with
    | nil => exact hne hgi
    | cons kb kbs =>
      obtain ⟨hbne, hnd, hco⟩ := hkb kb (hgi ▸ List.mem_cons_self _ _)
      have h1 : kb.2.length ≠ 0 := by
        intro h0
        exact hbne (List.length_eq_zero.mp h0)
      have h2 : totalEntries s
          = mapSum (fun bkt => bkt.length) gi.2 + mapSum
            (fun inner => mapSum (fun bkt => bkt.length) inner) rest := by
        unfold totalEntries
        rw [hb, mapSum_cons]
      have h3 : mapSum (fun bkt => bkt.length) gi.2
          = kb.2.length + mapSum (fun bkt => bkt.length) kbs := by
        rw [hgi, mapSum_cons]
      omega

/-- The lookup/characterization lemma for `have_backoff`: on a well-formed
session whose ranges for the shard do not overlap, `have_backoff` finds a
token exactly when some registered token for the shard matches the key. -/
theorem have_backoff_isSome_iff {s : Session} {g oid : Nat}
    (hwf : SessionWF s) (hno : NonOverlap s g) :
    (have_backoff s g oid).isSome = true ↔
      ∃ b ∈ sessionTokens s g, BMatches b oid := by
  obtain ⟨hso, hin, hc⟩ := hwf
  by_cases h0 : s.backoff_count = 0
  · have hT : totalEntries s = 0 := by
      rw [hc] at h0
      exact_mod_cast h0
    have hbe : s.backoffs = [] := totalEntries_eq_zero ⟨hso, hin, hc⟩ hT
    have hL : have_backoff s g oid = none := by
      unfold have_backoff
      rw [if_pos h0]
    have hst : sessionTokens s g = [] := by
      unfold sessionTokens
      rw [hbe]
      rfl
    rw [hL, hst]
    simp
  · cases hf : mapFind s.backoffs g with
    | none =>
      have hst : sessionTokens s g = [] := by
        unfold sessionTokens
        rw [hf]
      have hL : have_backoff s g oid = none := by
        unfold have_backoff
        rw [if_neg h0, hf]
      rw [hL, hst]
      simp
    | some inner =>
      have hst : sessionTokens s g = inner.flatMap (fun kb => kb.2) := by
        unfold sessionTokens
        rw [hf]
      have hL : have_backoff s g oid = have_backoff_in inner oid := by
        unfold have_backoff
        rw [if_neg h0, hf]
      have hmem : (g, inner) ∈ s.backoffs := mapFind_mem hf
      obtain ⟨hsort0, hne0, hkb0a⟩ := hin (g, inner) hmem
      have hsort : inner.Pairwise (fun a b => a.1 < b.1) := hsort0
      have hkb : ∀ kb ∈ inner, kb.2 ≠ [] ∧ kb.2.Nodup ∧
          ∀ b ∈ kb.2, b.pgid = g ∧ b.bbegin = kb.1 := hkb0a
      rw [hL, hst]
      rw [have_backoff_in_eq_gle hsort]
      cases hgle : gle inner oid with
      | none =>
        constructor
        · intro h
          simp at h
        · rintro ⟨b, hb, hmatch⟩
          exfalso
          rw [List.mem_flatMap] at hb
          obtain ⟨kb0, hkb0, hbin0⟩ := hb
          obtain ⟨hbne0, hnd0, hcoh0⟩ := hkb kb0 hkb0
          have hbb : b.bbegin = kb0.1 := (hcoh0 b hbin0).2
          have hble : b.bbegin ≤ oid := by
            rcases hmatch with h | h
            · omega
            · exact h.1
          have hk1 : kb0.1 ≤ oid := by omega
          have := gle_isSome_of_mem hsort hkb0 hk1
          rw [hgle] at this
          simp at this
      | some kv =>
        have hkle : kv.1 ≤ oid := gle_key_le hgle
        have hkvmem : kv ∈ inner := gle_mem hgle
        obtain ⟨hbne, hnd, hcoh⟩ := hkb kv hkvmem
        show (scan_set (cmp3 oid kv.1) oid kv.2).isSome = true ↔
          ∃ b ∈ inner.flatMap (fun kb => kb.2), BMatches b oid
        constructor
        · intro hsome
          obtain ⟨q, hq⟩ := Option.isSome_iff_exists.mp hsome
          obtain ⟨hqmem, hqcond⟩ := scan_some_mem hq
          refine ⟨q, List.mem_flatMap.mpr ⟨kv, hkvmem, hqmem⟩, ?_⟩
          have hqb : q.bbegin = kv.1 := (hcoh q hqmem).2
          rcases hqcond with he | hend
          · left
            have : oid = kv.1 := cmp3_eq_iff.mp he
            omega
          · right
            exact ⟨by omega, hend⟩
        · rintro ⟨b, hb, hmatch⟩
          rw [List.mem_flatMap] at hb
          obtain ⟨kb0, hkb0, hbin0⟩ := hb
          obtain ⟨hbne0, hnd0, hcoh0⟩ := hkb kb0 hkb0
          have hbb : b.bbegin = kb0.1 := (hcoh0 b hbin0).2
          have hble : b.bbegin ≤ oid := by
            rcases hmatch with h | h
            · omega
            · exact h.1
          by_cases heq : kv.1 = oid
          · have hr : cmp3 oid kv.1 = Ordering.eq := cmp3_eq_iff.mpr heq.symm
            rw [hr]
            exact scan_eq_isSome hbne
          · have hklt : kv.1 < oid := lt_of_le_of_ne hkle heq
            have hbk : kb0.1 ≤ kv.1 :=
              gle_greatest hsort hgle kb0 hkb0 (by omega)
            have hbend : oid < b.bend := by
              rcases hmatch with h | h
              · omega
              · exact h.2
            by_cases hbeq : kb0.1 = kv.1
            · have e1 : mapFind inner kb0.1 = some kb0.2 :=
                mapFind_eq_some_of_mem hsort hkb0
              have e2 : mapFind inner kv.1 = some kv.2 :=
                mapFind_eq_some_of_mem hsort hkvmem
              rw [hbeq] at e1
              have hbkt : kb0.2 = kv.2 := by
                have := e1.symm.trans e2
                injection this
              exact scan_isSome_of_exists (hbkt ▸ hbin0) (Or.inr hbend)
            · exfalso
              have hblt : kb0.1 < kv.1 := lt_of_le_of_ne hbk hbeq
              obtain ⟨q0, hq0⟩ : ∃ q0, q0 ∈ kv.2 :=
                List.exists_mem_of_ne_nil kv.2 hbne
              have hq0b : q0.bbegin = kv.1 := (hcoh q0 hq0).2
              have hbtok : b ∈ sessionTokens s g := by
                rw [hst]
                exact List.mem_flatMap.mpr ⟨kb0, hkb0, hbin0⟩
              have hq0tok : q0 ∈ sessionTokens s g := by
                rw [hst]
                exact List.mem_flatMap.mpr ⟨kv, hkvmem, hq0⟩
              have hnoo := hno b hbtok q0 hq0tok (by omega)
              omega

/-! ## Lemmas about `setInsert`, `allTokens` and the mutators -/

theorem setInsert_ne_nil (l : List Backoff) (b : Backoff) : setInsert l b ≠ [] := by
  unfold setInsert
  by_cases h : b ∈ l
  · rw [if_pos h]
    intro hl
    rw [hl] at h
    simp at h
  · rw [if_neg h]
    simp

theorem mem_setInsert {l : List Backoff} {b x : Backoff}
    (h : x ∈ setInsert l b) : x ∈ l ∨ x = b := by
  unfold setInsert at h
  by_cases hb : b ∈ l
  · rw [if_pos hb] at h
    exact Or.inl h
  · rw [if_neg hb] at h
    rcases List.mem_append.mp h with h' | h'
    · exact Or.inl h'
    · simp at h'
      exact Or.inr h'

theorem setInsert_nodup {l : List Backoff} {b : Backoff} (h : l.Nodup) :
    (setInsert l b).Nodup := by
  unfold setInsert
  by_cases hb : b ∈ l
  · rw [if_pos hb]; exact h
  · rw [if_neg hb]
    simp [List.nodup_append, h, hb]

theorem setInsert_length_of_not_mem {l : List Backoff} {b : Backoff}
    (h : b ∉ l) : (setInsert l b).length = l.length + 1 := by
  unfold setInsert
  rw [if_neg h]
  simp

theorem setInsert_length_of_mem {l : List Backoff} {b : Backoff}
    (h : b ∈ l) : (setInsert l b).length = l.length := by
  unfold setInsert
  rw [if_pos h]

theorem mapUpdate_ne_nil {β : Type} (m : List (Nat × β)) (k : Nat)
    (f : Option β → β) : mapUpdate m k f ≠ [] := by
  cases m with
  | nil => simp [mapUpdate]
  | cons kv rest =>
    simp only [mapUpdate]
    by_cases h1 : k < kv.1
    · rw [if_pos h1]; simp
    · rw [if_neg h1]
      by_cases h2 : k = kv.1
      · rw [if_pos h2]; simp
      · rw [if_neg h2]; simp

theorem mem_allTokens {s : Session} {gi : Nat × List (Nat × List Backoff)}
    {kb : Nat × List Backoff} {x : Backoff} (h1 : gi ∈ s.backoffs)
    (h2 : kb ∈ gi.2) (h3 : x ∈ kb.2) : x ∈ allTokens s := by
  unfold allTokens
  exact List.mem_flatMap.mpr ⟨gi, h1, List.mem_flatMap.mpr ⟨kb, h2, h3⟩⟩

/-- When the token is not registered anywhere in the session's index,
`rm_backoff` leaves the session unchanged. -/
theorem rm_backoff_absent {s : Session} {b : Backoff}
    (h : b ∉ allTokens s) : rm_backoff s b = s := by
  cases hf1 : mapFind s.backoffs b.pgid with
  | none => simp only [rm_backoff, hf1]
  | some inner =>
    cases hf2 : mapFind inner b.bbegin with
    | none => simp only [rm_backoff, hf1, hf2]
    | some bkt =>
      have hnb : b ∉ bkt := by
        intro hmem
        exact h (mem_allTokens (mapFind_mem hf1) (mapFind_mem hf2) hmem)
      simp only [rm_backoff, hf1, hf2, if_neg hnb]

/-- The branch of `rm_backoff` taken when the token is found. -/
theorem rm_backoff_found {s : Session} {b : Backoff}
    {inner : List (Nat × List Backoff)} {bkt : List Backoff}
    (hf1 : mapFind s.backoffs b.pgid = some inner)
    (hf2 : mapFind inner b.bbegin = some bkt) (hmem : b ∈ bkt) :
    rm_backoff s b =
      { backoff_count := s.backoff_count - 1,
        backoffs :=
          if (if bkt.erase b = [] then mapErase inner b.bbegin
              else mapSet inner b.bbegin (bkt.erase b)) = []
          then mapErase s.backoffs b.pgid
          else mapSet s.backoffs b.pgid
            (if bkt.erase b = [] then mapErase inner b.bbegin
             else mapSet inner b.bbegin (bkt.erase b)) } := by
  simp only [rm_backoff, hf1, hf2, if_pos hmem]

/-- `add_backoff` preserves well-formedness when the token is not yet
registered (the discipline the PG callers follow). -/
theorem add_backoff_WF {s : Session} {b : Backoff} (hwf : SessionWF s)
    (hb : b ∉ allTokens s) : SessionWF (add_backoff s b) := by
  obtain ⟨hso, hin, hc⟩ := hwf
  have hsort0 : ((mapFind s.backoffs b.pgid).getD []).Pairwise
      (fun a c => a.1 < c.1) := by
    cases hv : mapFind s.backoffs b.pgid with
    | none => simp
    | some inner => simpa using (hin (b.pgid, inner) (mapFind_mem hv)).1
  have hkbs : ∀ kb ∈ (mapFind s.backoffs b.pgid).getD [], kb.2 ≠ [] ∧
      kb.2.Nodup ∧ ∀ x ∈ kb.2, x.pgid = b.pgid ∧ x.bbegin = kb.1 := by
    cases hv : mapFind s.backoffs b.pgid with
    | none => simp
    | some inner =>
      intro kb hkb
      exact (hin (b.pgid, inner) (mapFind_mem hv)).2.2 kb (by simpa using hkb)
  have hnd0 : (((mapFind ((mapFind s.backoffs b.pgid).getD [])
      b.bbegin).getD []) : List Backoff).Nodup := by
    cases hw : mapFind ((mapFind s.backoffs b.pgid).getD []) b.bbegin with
    | none => simp
    | some bkt => simpa using (hkbs (b.bbegin, bkt) (mapFind_mem hw)).2.1
  have hcoh0 : ∀ x ∈ ((mapFind ((mapFind s.backoffs b.pgid).getD [])
      b.bbegin).getD [] : List Backoff), x.pgid = b.pgid ∧ x.bbegin = b.bbegin := by
    cases hw : mapFind ((mapFind s.backoffs b.pgid).getD []) b.bbegin with
    | none => simp
    | some bkt =>
      intro x hx
      exact (hkbs (b.bbegin, bkt) (mapFind_mem hw)).2.2 x (by simpa using hx)
  have hnb0 : b ∉ ((mapFind ((mapFind s.backoffs b.pgid).getD [])
      b.bbegin).getD [] : List Backoff) := by
    intro hmem
    apply hb
    cases hv : mapFind s.backoffs b.pgid with
    | none =>
      rw [hv] at hmem
      simp [mapFind] at hmem
    | some inner =>
      rw [hv] at hmem
      simp only [Option.getD_some] at hmem
      cases hw : mapFind inner b.bbegin with
      | none =>
        rw [hw] at hmem
        simp at hmem
      | some bkt =>
        rw [hw] at hmem
        simp only [Option.getD_some] at hmem
        exact mem_allTokens (mapFind_mem hv) (mapFind_mem hw) hmem
  refine ⟨mapUpdate_sorted hso, ?_, ?_⟩
  · intro gi hgi
    rcases mem_mapUpdate_sorted hso hgi with hold | hnew
    · exact hin gi hold
    · rw [hnew]
      refine ⟨mapUpdate_sorted hsort0, mapUpdate_ne_nil _ _ _, ?_⟩
      intro kb hkb
      rcases mem_mapUpdate_sorted hsort0 hkb with hold2 | hnew2
      · exact hkbs kb hold2
    
      · rw [hnew2]
        refine ⟨setInsert_ne_nil _ _, setInsert_nodup hnd0, ?_⟩
        intro x hx
        rcases mem_setInsert hx with hx' | hx'
        · exact hcoh0 x hx'
        · rw [hx']
          exact ⟨rfl, rfl⟩
  · show s.backoff_count + 1 = (totalEntries (add_backoff s b) : Int)
    have hE1 := mapUpdate_mapSum
      (fun inner => mapSum (fun bkt => bkt.length) inner) b.pgid
      (fun inner => mapUpdate (inner.getD []) b.bbegin (fun bkt =>
        setInsert (bkt.getD []) b)) hso
    have hE2 := mapUpdate_mapSum (fun bkt : List Backoff => bkt.length)
      b.bbegin (fun bkt => setInsert (bkt.getD []) b) hsort0
    have hlen : (setInsert ((mapFind ((mapFind s.backoffs b.pgid).getD [])
        b.bbegin).getD []) b).length
        = ((mapFind ((mapFind s.backoffs b.pgid).getD [])
        b.bbegin).getD [] : List Backoff).length + 1 :=
      setInsert_length_of_not_mem hnb0
    have hw0 : optSize (fun bkt : List Backoff => bkt.length)
        (mapFind ((mapFind s.backoffs b.pgid).getD []) b.bbegin)
        = ((mapFind ((mapFind s.backoffs b.pgid).getD [])
          b.bbegin).getD [] : List Backoff).length := by
      cases hw : mapFind ((mapFind s.backoffs b.pgid).getD []) b.bbegin <;>
        simp [optSize]
    have hv0 : optSize (fun inner => mapSum (fun bkt => bkt.length) inner)
        (mapFind s.backoffs b.pgid)
        = mapSum (fun bkt => bkt.length)
          ((mapFind s.backoffs b.pgid).getD []) := by
      cases hv : mapFind s.backoffs b.pgid <;> simp [optSize, mapSum]
    simp only at hE1 hE2
    rw [hlen, hw0] at hE2
    rw [hv0] at hE1
    have hback : (add_backoff s b).backoffs
        = mapUpdate s.backoffs b.pgid (fun inner =>
            mapUpdate (inner.getD []) b.bbegin (fun bkt =>
              setInsert (bkt.getD []) b)) := rfl
    have hT : totalEntries (add_backoff s b) = totalEntries s + 1 := by
      unfold totalEntries
      rw [hback]
      omega
    rw [hT, hc]
    push_cast
    ring

theorem mapSet_ne_nil {β : Type} {m : List (Nat × β)} {k : Nat} {v : β}
    (h : m ≠ []) : mapSet m k v ≠ [] := by
  cases m with
  | nil => exact absurd rfl h
  | cons kv rest =>
    simp only [mapSet]
    by_cases h1 : kv.1 = k
    · rw [if_pos h1]; simp
    · rw [if_neg h1]; simp

theorem totalEntries_mk (c : Int) (m : List (Nat × List (Nat × List Backoff))) :
    totalEntries { backoff_count := c, backoffs := m }
      = mapSum (fun inner => mapSum (fun bkt => bkt.length) inner) m := rfl

/-- `rm_backoff` preserves well-formedness unconditionally. -/
theorem rm_backoff_WF {s : Session} {b : Backoff} (hwf : SessionWF s) :
    SessionWF (rm_backoff s b) := by
  obtain ⟨hso, hin, hc⟩ := hwf
  cases hf1 : mapFind s.backoffs b.pgid with
  | none =>
    simp only [rm_backoff, hf1]
    exact ⟨hso, hin, hc⟩
  | some inner =>
    cases hf2 : mapFind inner b.bbegin with
    | none =>
      simp only [rm_backoff, hf1, hf2]
      exact ⟨hso, hin, hc⟩
    | some bkt =>
      by_cases hmemb : b ∈ bkt
      · rw [rm_backoff_found hf1 hf2 hmemb]
        have hI := hin (b.pgid, inner) (mapFind_mem hf1)
        have hsortI : inner.Pairwise (fun a c => a.1 < c.1) := hI.1
        have hneI : inner ≠ [] := hI.2.1
        have hkbI : ∀ kb ∈ inner, kb.2 ≠ [] ∧ kb.2.Nodup ∧
            ∀ x ∈ kb.2, x.pgid = b.pgid ∧ x.bbegin = kb.1 := hI.2.2
        have hB := hkbI (b.bbegin, bkt) (mapFind_mem hf2)
        have hndB : bkt.Nodup := hB.2.1
        have hcohB : ∀ x ∈ bkt, x.pgid = b.pgid ∧ x.bbegin = b.bbegin := by
          intro x hx
          simpa using hB.2.2 x hx
        have hpos : 0 < bkt.length := List.length_pos_of_mem hmemb
        have hlenB : (bkt.erase b).length + 1 = bkt.length := by
          rw [List.length_erase_of_mem hmemb]
          omega
        have hcohE : ∀ x ∈ bkt.erase b, x.pgid = b.pgid ∧ x.bbegin = b.bbegin :=
          fun x hx => hcohB x ((bkt.erase_sublist b).subset hx)
        have hndE : (bkt.erase b).Nodup := hndB.erase b
        by_cases hbe : bkt.erase b = []
        · simp only [if_pos hbe]
          have hSI : mapSum (fun bk => bk.length) (mapErase inner b.bbegin)
              + bkt.length = mapSum (fun bk => bk.length) inner :=
            mapErase_mapSum _ hf2
          have hkbE : ∀ kb ∈ mapErase inner b.bbegin, kb.2 ≠ [] ∧ kb.2.Nodup ∧
              ∀ x ∈ kb.2, x.pgid = b.pgid ∧ x.bbegin = kb.1 :=
            fun kb hkb => hkbI kb ((mapErase_sublist inner b.bbegin).subset hkb)
          by_cases hie : mapErase inner b.bbegin = []
          · simp only [if_pos hie]
            refine ⟨mapErase_sorted hso, ?_, ?_⟩
            · intro gi hgi
              exact hin gi ((mapErase_sublist _ _).subset hgi)
            · have hSO : mapSum (fun i2 => mapSum (fun bk => bk.length) i2)
                  (mapErase s.backoffs b.pgid)
                  + mapSum (fun bk => bk.length) inner
                  = mapSum (fun i2 => mapSum (fun bk => bk.length) i2)
                    s.backoffs := mapErase_mapSum _ hf1
              rw [hie] at hSI
              rw [hbe] at hlenB
              simp only [mapSum_nil] at hSI
              simp only [List.length_nil] at hlenB
              simp only [totalEntries_mk]
              unfold totalEntries at hc
              omega
          · simp only [if_neg hie]
            refine ⟨mapSet_sorted hso, ?_, ?_⟩
            · intro gi hgi
              rcases mem_mapSet hgi with hnew | hold
              · rw [hnew]
                exact ⟨mapErase_sorted hsortI, hie, hkbE⟩
              · exact hin gi hold
            · have hSO : mapSum (fun i2 => mapSum (fun bk => bk.length) i2)
                  (mapSet s.backoffs b.pgid (mapErase inner b.bbegin))
                  + mapSum (fun bk => bk.length) inner
                  = mapSum (fun i2 => mapSum (fun bk => bk.length) i2)
                    s.backoffs
                  + mapSum (fun bk => bk.length) (mapErase inner b.bbegin) :=
                mapSet_mapSum _ _ hf1
              rw [hbe] at hlenB
              simp only [List.length_nil] at hlenB
              simp only [totalEntries_mk]
              unfold totalEntries at hc
              omega
        · have hSI : mapSum (fun bk => bk.length)
              (mapSet inner b.bbegin (bkt.erase b)) + bkt.length
              = mapSum (fun bk => bk.length) inner + (bkt.erase b).length :=
            mapSet_mapSum _ _ hf2
          have hne' : mapSet inner b.bbegin (bkt.erase b) ≠ [] :=
            mapSet_ne_nil hneI
          simp only [if_neg hbe, if_neg hne']
          refine ⟨mapSet_sorted hso, ?_, ?_⟩
          · intro gi hgi
            rcases mem_mapSet hgi with hnew | hold
            · rw [hnew]
              refine ⟨mapSet_sorted hsortI, hne', ?_⟩
              intro kb hkb
              rcases mem_mapSet hkb with hnew2 | hold2
              · rw [hnew2]
                exact ⟨hbe, hndE, hcohE⟩
              · exact hkbI kb hold2
            · exact hin gi hold
          · have hSO : mapSum (fun i2 => mapSum (fun bk => bk.length) i2)
                (mapSet s.backoffs b.pgid (mapSet inner b.bbegin (bkt.erase b)))
                + mapSum (fun bk => bk.length) inner
                = mapSum (fun i2 => mapSum (fun bk => bk.length) i2) s.backoffs
                + mapSum (fun bk => bk.length)
                    (mapSet inner b.bbegin (bkt.erase b)) :=
              mapSet_mapSum _ _ hf1
            simp only [totalEntries_mk]
            unfold totalEntries at hc
            omega
      · simp only [rm_backoff, hf1, hf2, if_neg hmemb]
        exact ⟨hso, hin, hc⟩

/-- A well-formed session satisfies the source's asserted invariant. -/
theorem wf_cephInv {s : Session} (hwf : SessionWF s) : cephInv s := by
  obtain ⟨hso, hin, hc⟩ := hwf
  constructor
  · intro h0
    apply totalEntries_eq_zero ⟨hso, hin, hc⟩
    rw [hc] at h0
    exact_mod_cast h0
  · intro hb
    rw [hc]
    have h0 : totalEntries s = 0 := by
      unfold totalEntries
      rw [hb]
      rfl
    rw [h0]
    rfl

theorem okOps_of_append {s : Session} {pre suf : List Op}
    (h : okOps s (pre ++ suf) = true) : okOps s pre = true := by
  induction pre generalizing s with
  | nil => rfl
  | cons op rest ih =>
    cases op with
    | add b =>
      simp only [List.cons_append, okOps] at h ⊢
      by_cases hm : b ∈ allTokens s
      · rw [if_pos hm] at h
        exact absurd h (by simp)
      · rw [if_neg hm] at h ⊢
        exact ih h
    | rm b =>
      simp only [List.cons_append, okOps] at h ⊢
      exact ih h

theorem runOps_WF {s : Session} {ops : List Op} (hwf : SessionWF s)
    (hok : okOps s ops = true) : SessionWF (runOps s ops) := by
  induction ops generalizing s with
  | nil => exact hwf
  | cons op rest ih =>
    cases op with
    | add b =>
      simp only [okOps] at hok
      simp only [runOps, applyOp]
      by_cases hm : b ∈ allTokens s
      · rw [if_pos hm] at hok
        exact absurd hok (by simp)
      · rw [if_neg hm] at hok
        exact ih (add_backoff_WF hwf hm) hok
    | rm b =>
      simp only [okOps] at hok
      simp only [runOps, applyOp]
      exact ih (rm_backoff_WF hwf) hok

/-- The owner-reference invariant of the source's NOTE holds in every
reachable lifecycle state. -/
theorem breachable_ownerInv {t : BackoffOwn} (h : BReachable t) : OwnerInv t := by
  induction h with
  | init p s =>
    left
    exact ⟨by simp, by simp⟩
  | step hr hs ih =>
    cases hs with
    | mark_acked p s =>
      rcases ih with ⟨h1, h2⟩ | ⟨h1, h2⟩ | ⟨h1, h2, h3⟩
      · left; exact ⟨h1, h2⟩
      · right; left; exact ⟨h1, h2⟩
      · simp [OwnerInv] at h3
    | release_live st p s =>
      right; left; exact ⟨rfl, rfl⟩
    | release_new p s =>
      right; right; exact ⟨rfl, by simp, rfl⟩
    | ack_deleting s =>
      right; left; exact ⟨rfl, rfl⟩
    | session_clear st p s =>
      right; left; exact ⟨rfl, rfl⟩

/-! ## Lookup never inspects the token state -/

theorem mapFind_map_val {β γ : Type} (h : β → γ) (m : List (Nat × β)) (k : Nat) :
    mapFind (m.map (fun kv => (kv.1, h kv.2))) k = Option.map h (mapFind m k) := by
  induction m with
  | nil => rfl
  | cons kv rest ih =>
    simp only [List.map_cons, mapFind]
    by_cases h1 : kv.1 = k
    · rw [if_pos h1, if_pos h1]
      rfl
    · rw [if_neg h1, if_neg h1]
      exact ih

theorem lower_bound_map_val {β γ : Type} (h : β → γ) (m : List (Nat × β))
    (oid : Nat) :
    lower_bound (m.map (fun kv => (kv.1, h kv.2))) oid = lower_bound m oid := by
  induction m with
  | nil => rfl
  | cons kv rest ih =>
    simp only [List.map_cons, lower_bound]
    by_cases h1 : oid ≤ kv.1
    · rw [if_pos h1, if_pos h1]
    · rw [if_neg h1, if_neg h1, ih]

theorem stepBack_map_val {β γ : Type} (h : β → γ) (m : List (Nat × β))
    (oid i : Nat) :
    stepBack (m.map (fun kv => (kv.1, h kv.2))) oid i = stepBack m oid i := by
  unfold stepBack
  rw [List.length_map, List.getElem?_map]
  cases hmi : m[i]? with
  | none => rfl
  | some kv => rfl

theorem scan_set_map (f : BState → BState) (r : Ordering) (oid : Nat)
    (bkt : List Backoff) :
    scan_set r oid (bkt.map (setBState f))
      = Option.map (setBState f) (scan_set r oid bkt) := by
  induction bkt with
  | nil => rfl
  | cons q qs ih =>
    have hbend : (setBState f q).bend = q.bend := rfl
    simp only [List.map_cons, scan_set, hbend]
    by_cases hc : r = Ordering.eq ∨ oid < q.bend
    · rw [if_pos hc, if_pos hc]
      rfl
    · rw [if_neg hc, if_neg hc]
      exact ih

theorem have_backoff_in_map (f : BState → BState)
    (inner : List (Nat × List Backoff)) (oid : Nat) :
    have_backoff_in (inner.map (fun kb => (kb.1, kb.2.map (setBState f)))) oid
      = Option.map (setBState f) (have_backoff_in inner oid) := by
  unfold have_backoff_in
  simp only [lower_bound_map_val, stepBack_map_val, List.getElem?_map]
  cases hp : inner[stepBack inner oid (lower_bound inner oid)]? with
  | none => rfl
  | some kv =>
    simp only [Option.map_some']
    by_cases hc : cmp3 oid kv.1 = Ordering.eq ∨ cmp3 oid kv.1 = Ordering.gt
    · rw [if_pos hc, if_pos hc]
      exact scan_set_map f _ oid kv.2
    · rw [if_neg hc, if_neg hc]
      rfl

theorem have_backoff_mapState (f : BState → BState) (s : Session)
    (g oid : Nat) :
    have_backoff (mapStateSession f s) g oid
      = Option.map (setBState f) (have_backoff s g oid) := by
  have hcnt : (mapStateSession f s).backoff_count = s.backoff_count := rfl
  have hbk : (mapStateSession f s).backoffs
      = s.backoffs.map (fun gi =>
          (gi.1, gi.2.map (fun kb => (kb.1, kb.2.map (setBState f))))) := rfl
  unfold have_backoff
  rw [hcnt, hbk]
  by_cases h0 : s.backoff_count = 0
  · rw [if_pos h0, if_pos h0]
    rfl
  · rw [if_neg h0, if_neg h0]
    rw [mapFind_map_val (fun i2 : List (Nat × List Backoff) =>
      i2.map (fun kb => (kb.1, kb.2.map (setBState f))))]
    cases hf : mapFind s.backoffs g with
    | none => rfl
    | some inner =>
      simp only [Option.map_some']
      exact have_backoff_in_map f inner oid

/-! ## Concrete tokens and sessions used by counterexamples and witnesses -/

/-- A token blocking `[0, 10)` on shard 1. -/
def tokWide : Backoff := Backoff.create 1 (some 0) (some 0) 1 0 10

/-- A token blocking `[5, 6)` on shard 1 — its range lies inside `tokWide`. -/
def tokInner : Backoff := Backoff.create 1 (some 0) (some 0) 2 5 6

/-- A session holding two overlapping ranges for shard 1, built with
`add_backoff`. -/
def overlapSession : Session := add_backoff (add_backoff emptySession tokWide) tokInner

/-- A token blocking `[3, 8)` on shard 1. -/
def tokDup : Backoff := Backoff.create 1 (some 0) (some 0) 1 3 8

/-- A token on shard 2, used as an unregistered token. -/
def tokOther : Backoff := Backoff.create 2 (some 0) (some 0) 9 4 6

/-! ## Claim C1 -/

/-- C1 (claim as stated, refuted): it is not the case that `have_backoff`
returns a token iff some registered token matches, without a precondition on
overlap of the registered ranges.  With `[0,10)` and `[5,6)` registered for
shard 1, key 7 is inside `[0,10)` but `have_backoff` — which only scans the
bucket with the greatest start key `≤ 7`, namely 5 — returns none. -/
theorem C1_counterexample :
    ¬ (((have_backoff overlapSession 1 7).isSome = true) ↔
        ∃ b ∈ sessionTokens overlapSession 1, BMatches b 7) := by decide

/-- C1 (amended): on a well-formed session whose registered ranges for the
shard do not overlap across distinct start keys, `have_backoff(shard, key)`
returns a token if and only if some token registered for that shard
satisfies `begin == key` or `begin ≤ key < end`, and returns none
otherwise. -/
theorem C1_theorem (s : Session) (g oid : Nat) (hwf : SessionWF s)
    (hno : NonOverlap s g) :
    (have_backoff s g oid).isSome = true ↔
      ∃ b ∈ sessionTokens s g, BMatches b oid :=
  have_backoff_isSome_iff hwf hno

/-- C1 witness: the amended theorem applied to the concrete session holding
only `[0,10)` for shard 1 at key 7. -/
theorem C1_witness :
    (have_backoff (add_backoff emptySession tokWide) 1 7).isSome = true ↔
      ∃ b ∈ sessionTokens (add_backoff emptySession tokWide) 1, BMatches b 7 :=
  C1_theorem (add_backoff emptySession tokWide) 1 7 (by decide) (by decide)

/-! ## Claim C2 -/

/-- C2 (claim as stated, refuted): the invariant
`backoff_count == 0 ⇔ backoffs empty` does not hold after every call of
every `add_backoff`/`rm_backoff` sequence.  Adding the same token twice
increments the count twice while the set stores it once; the following
`rm_backoff` erases it and leaves `backoff_count = 1` with an empty map. -/
theorem C2_counterexample :
    ¬ cephInv (runOps emptySession [Op.add tokDup, Op.add tokDup, Op.rm tokDup]) := by
  decide

/-- C2 (amended): for every sequence of `add_backoff`/`rm_backoff` calls in
which no `add_backoff` is invoked with a token already registered on the
session, the invariant `backoff_count == 0 ⇔ backoffs empty` holds after
every call (i.e. after every prefix of the sequence). -/
theorem C2_theorem (s : Session) (ops pre suf : List Op) (hwf : SessionWF s)
    (hok : okOps s ops = true) (hsplit : ops = pre ++ suf) :
    cephInv (runOps s pre) := by
  subst hsplit
  exact wf_cephInv (runOps_WF hwf (okOps_of_append hok))

/-- C2 witness: the amended theorem applied to the sequence
`[add, rm]` on the empty session, at the prefix `[add]`. -/
theorem C2_witness : cephInv (runOps emptySession [Op.add tokDup]) :=
  C2_theorem emptySession [Op.add tokDup, Op.rm tokDup] [Op.add tokDup]
    [Op.rm tokDup] (by decide) (by decide) rfl

/-! ## Claim C3 -/

/-- C3: after registering on an empty session a single token whose `begin`
equals its `end` (a single-key block at `k`), `have_backoff` on that shard
returns that token for lookup key `k` and none for every other key. -/
theorem C3_theorem (g i k : Nat) (st : BState) (pg ses : Option Nat)
    (key : Nat) :
    have_backoff (add_backoff emptySession (Backoff.mk g i k k st pg ses)) g key
      = if key = k then some (Backoff.mk g i k k st pg ses) else none := by
  have hsess : add_backoff emptySession (Backoff.mk g i k k st pg ses)
      = { backoff_count := 1,
          backoffs := [(g, [(k, [Backoff.mk g i k k st pg ses])])] } := by
    unfold add_backoff emptySession
    simp [mapUpdate, setInsert]
  rw [hsess]
  unfold have_backoff
  rw [if_neg (by norm_num)]
  have hfind : mapFind [(g, [(k, [Backoff.mk g i k k st pg ses])])] g
      = some [(k, [Backoff.mk g i k k st pg ses])] := by
    simp [mapFind]
  simp only [hfind]
  rw [have_backoff_in_eq_gle (by simp)]
  rcases Nat.lt_trichotomy key k with hlt | heq | hgt
  · have hg : gle [(k, [Backoff.mk g i k k st pg ses])] key = none := by
      simp only [gle]
      rw [if_neg (by omega)]
    rw [hg, if_neg (by omega)]
  · have hg : gle [(k, [Backoff.mk g i k k st pg ses])] key
        = some (k, [Backoff.mk g i k k st pg ses]) := by
      simp only [gle]
      rw [if_pos (by omega)]
    rw [hg]
    have hr : cmp3 key k = Ordering.eq := cmp3_eq_iff.mpr heq
    rw [if_pos heq]
    simp [scan_set, hr]
  · have hg : gle [(k, [Backoff.mk g i k k st pg ses])] key
        = some (k, [Backoff.mk g i k k st pg ses]) := by
      simp only [gle]
      rw [if_pos (by omega)]
    rw [hg]
    have hr : cmp3 key k = Ordering.gt := by
      have hne1 : ¬ (key < k) := by omega
      have hne2 : ¬ (key = k) := by omega
      unfold cmp3
      rw [if_neg hne1, if_neg hne2]
    rw [if_neg (by omega)]
    have hnc : ¬ (cmp3 key k = Ordering.eq ∨
        key < (Backoff.mk g i k k st pg ses).bend) := by
      rw [hr]
      simp
      omega
    simp [scan_set, hnc]

/-! ## Claim C4 -/

/-- C4 (claim as stated, refuted): the asymmetric teardown state with the
session reference null and the PG reference still set is not reachable, in
any token state.  The source's NOTE admits only the other asymmetric state
(PG null, session set, `DELETING`); on session teardown the session pointer
and the PG link are cleared together. -/
theorem C4_counterexample :
    ¬ ∃ (p : Nat) (st : BState), BReachable ⟨st, some p, none⟩ := by
  rintro ⟨p, st, h⟩
  have hinv := breachable_ownerInv h
  rcases hinv with ⟨h1, h2⟩ | ⟨h1, h2⟩ | ⟨h1, h2, h3⟩
  · exact h2 rfl
  · simp at h1
  · simp at h1

/-- C4 (amended): every reachable token state satisfies the source's NOTE:
the PG and session references are both set, or both null, or only the
session reference is set and the state is `Deleting`.  (The opposite
asymmetric state never occurs.) -/
theorem C4_theorem (t : BackoffOwn) (h : BReachable t) : OwnerInv t :=
  breachable_ownerInv h

/-- C4 witness: the amended invariant at the initial state of a freshly
constructed token. -/
theorem C4_witness : OwnerInv ⟨BState.New, some 0, some 0⟩ :=
  C4_theorem ⟨BState.New, some 0, some 0⟩ (BReachable.init 0 0)

/-! ## Claim C5 -/

/-- C5 (claim as stated, refuted): construction does not require the owner
references to be non-null — the constructor stores whatever references it
is given, and a detached token (both references null) is constructed
without complaint, still in state `New`. -/
theorem C5_counterexample :
    (Backoff.create 1 none none 7 2 3).pg = none ∧
    (Backoff.create 1 none none 7 2 3).session = none ∧
    (Backoff.create 1 none none 7 2 3).state = BState.New := by decide

/-- C5 (amended): every constructed token starts in state `New` with the
given `(shard_id, id)` identity, `[begin, end)` range, and the given owner
references, which are stored unchecked; their non-nullness is an obligation
on the caller, not enforced by the constructor. -/
theorem C5_theorem (g : Nat) (pg ses : Option Nat) (i bb e : Nat) :
    (Backoff.create g pg ses i bb e).state = BState.New ∧
    (Backoff.create g pg ses i bb e).pgid = g ∧
    (Backoff.create g pg ses i bb e).id = i ∧
    (Backoff.create g pg ses i bb e).bbegin = bb ∧
    (Backoff.create g pg ses i bb e).bend = e ∧
    (Backoff.create g pg ses i bb e).pg = pg ∧
    (Backoff.create g pg ses i bb e).session = ses :=
  ⟨rfl, rfl, rfl, rfl, rfl, rfl, rfl⟩

/-! ## Claim C6 -/

/-- C6: calling `rm_backoff` with a token that is not registered in the
session's index (for example, a token already removed) leaves the session —
both `backoff_count` and the nested map — completely unchanged; in
particular the count does not decrease and the count/emptiness invariant is
untouched. -/
theorem C6_theorem (s : Session) (b : Backoff) (h : b ∉ allTokens s) :
    rm_backoff s b = s :=
  rm_backoff_absent h

/-- C6 witness: removing an unregistered token from a session holding one
other token is a no-op. -/
theorem C6_witness :
    tokOther ∉ allTokens (add_backoff emptySession tokWide) ∧
    rm_backoff (add_backoff emptySession tokWide) tokOther
      = add_backoff emptySession tokWide :=
  ⟨by decide, C6_theorem (add_backoff emptySession tokWide) tokOther (by decide)⟩

/-! ## Claim C7 -/

/-- C7: `rm_backoff` demands that the caller holds the token's own lock and
that the token's session reference equals the session being modified.  The
checked operation aborts (returns `none`, the fatal `ceph_assert`) exactly
when one of the two preconditions fails, and otherwise proceeds to the
removal — so under the preconditions the assertion branches are
unreachable. -/
theorem C7_theorem (self : Nat) (held : Bool) (s : Session) (b : Backoff) :
    rm_backoffChecked self held s b
      = if held = true ∧ b.session = some self then some (rm_backoff s b)
        else none := by
  unfold rm_backoffChecked
  cases held with
  | false =>
    rw [if_pos rfl, if_neg (by simp)]
  | true =>
    rw [if_neg (by simp)]
    by_cases h2 : b.session = some self
    · rw [if_neg (by simp [h2]), if_pos ⟨rfl, h2⟩]
    · rw [if_pos h2, if_neg (by simp [h2])]

/-! ## Claim C8 -/

/-- C8: when the registered-count reads zero, `have_backoff` returns none
for every shard-id and key — for an arbitrary `backoffs` map, which is
never consulted (in the source, the lock is never taken on this path). -/
theorem C8_theorem (m : List (Nat × List (Nat × List Backoff)))
    (g oid : Nat) :
    have_backoff { backoff_count := 0, backoffs := m } g oid = none := by
  unfold have_backoff
  rw [if_pos rfl]

/-! ## Claim C9 -/

/-- C9: `add_backoff` increments `backoff_count` unconditionally, even when
the token is already present in the target set and the set insert is a
no-op — in that case the total number of stored entries does not change, so
the count drifts away from the entry total; the count/entries equality
survives only when no token is added twice. -/
theorem C9_theorem (s : Session) (b : Backoff) (hwf : SessionWF s) :
    (add_backoff s b).backoff_count = s.backoff_count + 1 ∧
    (b ∈ bucketOf s b.pgid b.bbegin →
      totalEntries (add_backoff s b) = totalEntries s) := by
  obtain ⟨hso, hin, hc⟩ := hwf
  constructor
  · rfl
  · intro hm
    cases hv : mapFind s.backoffs b.pgid with
    | none =>
      unfold bucketOf at hm
      rw [hv] at hm
      simp at hm
    | some inner =>
      unfold bucketOf at hm
      simp only [hv] at hm
      cases hw : mapFind inner b.bbegin with
      | none =>
        rw [hw] at hm
        simp at hm
      | some bkt =>
        rw [hw] at hm
        simp only [Option.getD_some] at hm
        have hsortI : inner.Pairwise (fun a c => a.1 < c.1) :=
          (hin (b.pgid, inner) (mapFind_mem hv)).1
        have hE1 := mapUpdate_mapSum
          (fun i2 => mapSum (fun bk => bk.length) i2) b.pgid
          (fun i2 => mapUpdate (i2.getD []) b.bbegin (fun bk =>
            setInsert (bk.getD []) b)) hso
        have hE2 := mapUpdate_mapSum (fun bk : List Backoff => bk.length)
          b.bbegin (fun bk => setInsert (bk.getD []) b) hsortI
        rw [hv] at hE1
        rw [hw] at hE2
        simp only [optSize, Option.getD_some] at hE1 hE2
        rw [setInsert_length_of_mem hm] at hE2
        have hback : (add_backoff s b).backoffs
            = mapUpdate s.backoffs b.pgid (fun i2 =>
                mapUpdate (i2.getD []) b.bbegin (fun bk =>
                  setInsert (bk.getD []) b)) := rfl
        unfold totalEntries
        rw [hback]
        omega

/-- C9 witness: adding an already-registered token bumps the count without
adding an entry. -/
theorem C9_witness :
    SessionWF (add_backoff emptySession tokWide) ∧
    (add_backoff (add_backoff emptySession tokWide) tokWide).backoff_count
      = (add_backoff emptySession tokWide).backoff_count + 1 ∧
    totalEntries (add_backoff (add_backoff emptySession tokWide) tokWide)
      = totalEntries (add_backoff emptySession tokWide) :=
  ⟨by decide,
   (C9_theorem (add_backoff emptySession tokWide) tokWide (by decide)).1,
   (C9_theorem (add_backoff emptySession tokWide) tokWide (by decide)).2
     (by decide)⟩

/-! ## Claim C10 -/

/-- C10: `have_backoff` matches purely by shard-id and range and never
inspects the token state: rewriting every registered token's state by an
arbitrary transition commutes with lookup — a `Deleting` (or `New`, or
`Acked`) token still registered is returned exactly as an `Acked` one
would be. -/
theorem C10_theorem (f : BState → BState) (s : Session) (g oid : Nat) :
    have_backoff (mapStateSession f s) g oid
      = Option.map (setBState f) (have_backoff s g oid) :=
  have_backoff_mapState f s g oid
